import Mathlib

/-!
Verification of the FCH-pyomo job-shop scheduling script (src/main.py).

The script compiles a multi-machine, multi-job scheduling problem into a
mixed-integer linear model: it expands each machine's daily calendar into
valid start slots over a multi-day horizon, builds duration, precedence,
slot-selection and makespan constraints, compiles the pairwise no-overlap
disjunctions to linear big-M form, calls a MILP solver, and reports the
schedule and per-machine utilization.

This file is a shallow embedding of those computations — lists for the
Python lists and dictionaries, rationals for the continuous Pyomo
variables — together with theorems settling the specification's claims
about them.  Definitions come first, theorems after.
-/

namespace FCH

/-! ### Data model (main.py lines 19-41) -/

/-- One task record of the `Job_Task` dictionary (main.py lines 35-41):
`(job_id, task_id, machine, duration_in_hours, predecessor)`. -/
structure TaskRec where
  job : String
  taskName : String
  machine : String
  durationHours : Nat
  predecessor : Option String
deriving DecidableEq

/-- The `hrs * 60` hours→minutes conversion of main.py line 39. -/
def durationMin (r : TaskRec) : Nat := r.durationHours * 60

/-- The dictionary key `(job, task)` of a task record. -/
def key (r : TaskRec) : String × String := (r.job, r.taskName)

/-- `UB = 1440 * num_days` (main.py line 90): the horizon in minutes,
used both as the variable bound and (by the big-M transformation, whose
M is derived from the variable bounds) as the big-M constant. -/
def UB (numDays : Nat) : ℚ := 1440 * numDays

/-! ### Calendar expansion (main.py lines 43-57) -/

/-- The inner day-loop body of `valid_slots_by_task` (main.py lines 48-56):
with `offset = 1440 * day` and `shift_end = shift[-1] + offset`, every tick
`h` of the shift with `t0 + duration <= shift_end` (where `t0 = h + offset`)
contributes the slot `t0`, in the order the ticks are listed.  Python's
`shift[-1]` needs a nonempty shift; `getLastD 0` stands in for it and the
theorems below assume the shift nonempty, as every calendar in the script is. -/
def validSlotsDay (shift : List Nat) (duration day : Nat) : List Nat :=
  (shift.filter
      (fun h => h + 1440 * day + duration ≤ shift.getLastD 0 + 1440 * day)).map
    (fun h => h + 1440 * day)

/-- `valid_slots_by_task` for one task (main.py lines 43-57): the day loop
runs `day = 0, …, num_days - 1` in order and appends each day's slots. -/
def validSlots (shift : List Nat) (duration numDays : Nat) : List Nat :=
  (List.range numDays).flatMap (validSlotsDay shift duration)

/-- The Calendar Expander contract of spec §4.1, in the spec's own words:
the ordered set `{ w[i] + 1440*day : day ∈ [0,D), i ∈ [0,k], w[i] + d ≤ w[k] }`,
enumerated by ascending day, then tick. -/
def specSlots (w : List Nat) (d D : Nat) : List Nat :=
  (List.range D).flatMap (fun day =>
    (w.filter (fun h => h + d ≤ w.getLastD 0)).map (fun h => h + 1440 * day))

/-! ### No-overlap disjunctions and their big-M compilation
(main.py lines 118-135 and line 162) -/

/-- The symbolic no-overlap disjunction of main.py lines 125-135 for one
same-machine pair: A-before-B (`startTime[j2,t2] ≥ endTime[j1,t1]`) or
B-before-A (`startTime[j1,t1] ≥ endTime[j2,t2]`). -/
def orderingDisjunction (s1 e1 s2 e2 : ℚ) : Prop := s2 ≥ e1 ∨ s1 ≥ e2

/-- Modelled from the spec: the linear system produced for one no-overlap pair
by the `gdp.bigm` transformation invoked at main.py line 162 — the
transformation itself is Pyomo library code, not in src/ — per spec §4.3:
`second.start ≥ first.end − M·(1−y)` and `first.start ≥ second.end − M·y`,
with `y` the binary ordering indicator of the pair. -/
def bigMPair (M s1 e1 s2 e2 y : ℚ) : Prop :=
  s2 ≥ e1 - M * (1 - y) ∧ s1 ≥ e2 - M * y

/-! ### The compiled linear constraints (main.py lines 104-156) -/

/-- The Pyomo constraints compiled by main.py, one constructor per rule:
`durEq k d` is `endTime[k] = startTime[k] + d` (taskDurationConstraint),
`precGe k p` is `startTime[k] ≥ endTime[p]` (taskPredecessorConstraint),
`oneSlot k ss` is `Σ_{s ∈ ss} startAtSlot[k, s] = 1` (oneSlotPerTask),
`linkStart k ss` is `startTime[k] = Σ_{s ∈ ss} s·startAtSlot[k, s]`
(linkStartTime), and `mkGe k` is `makespan ≥ endTime[k]`
(makespanConstraint). -/
inductive Cons where
  | durEq (k : String × String) (d : Nat)
  | precGe (k p : String × String)
  | oneSlot (k : String × String) (ss : List Nat)
  | linkStart (k : String × String) (ss : List Nat)
  | mkGe (k : String × String)
deriving DecidableEq

/-- A valuation of the Pyomo decision variables (main.py lines 93-102). -/
structure Sol where
  startTime : String × String → ℚ
  endTime : String × String → ℚ
  startAtSlot : String × String → Nat → ℚ
  makespan : ℚ

/-- Satisfaction of one compiled constraint by a valuation. -/
def holds (σ : Sol) : Cons → Prop
  | .durEq k d => σ.endTime k = σ.startTime k + (d : ℚ)
  | .precGe k p => σ.startTime k ≥ σ.endTime p
  | .oneSlot k ss => (ss.map (σ.startAtSlot k)).sum = 1
  | .linkStart k ss =>
      σ.startTime k = (ss.map (fun s : Nat => (s : ℚ) * σ.startAtSlot k s)).sum
  | .mkGe k => σ.makespan ≥ σ.endTime k

/-- `precedence_rule` (main.py lines 111-115): `Constraint.Skip` (here `none`)
when the predecessor is `None`, else `startTime[j, t] ≥ endTime[j, pred]` —
the predecessor is looked up within the same job. -/
def precedenceRule (r : TaskRec) : Option Cons :=
  match r.predecessor with
  | none => none
  | some p => some (.precGe (key r) (r.job, p))

/-- The constraint lists built at main.py lines 104-156, in program order
(the no-overlap disjunctions of lines 118-135 are handled separately, via
`orderingDisjunction`/`bigMPair`): duration linkage for every task,
precedence via `precedenceRule`, one slot per task, start-time linkage, and
makespan. -/
def compileConstraints (ts : List TaskRec)
    (slotsOf : String × String → List Nat) : List Cons :=
  ts.map (fun r => .durEq (key r) (durationMin r))
    ++ ts.filterMap precedenceRule
    ++ ts.map (fun r => .oneSlot (key r) (slotsOf (key r)))
    ++ ts.map (fun r => .linkStart (key r) (slotsOf (key r)))
    ++ ts.map (fun r => .mkGe (key r))

/-! ### Utilization reporting (main.py lines 178-183) -/

/-- Python's `max` over a list (main.py line 182); `max([])` raises, so the
theorems below assume a nonempty calendar. -/
def pymax : List Nat → Nat
  | [] => 0
  | a :: l => l.foldl Nat.max a

/-- Python's `min` over a list (main.py line 182). -/
def pymin : List Nat → Nat
  | [] => 0
  | a :: l => l.foldl Nat.min a

/-- `tot` (main.py lines 180-181): the summed duration of every task bound to
machine `m`, independent of the solved schedule. -/
def totalDurationOn (ts : List TaskRec) (m : String) : Nat :=
  ((ts.filter (fun r => r.machine == m)).map durationMin).sum

/-- `util` (main.py line 182):
`tot / (max(calendar[m]) - min(calendar[m])) * 100`, over the rationals
(exact where Python divides floats). -/
def utilizationOn (cal : List Nat) (ts : List TaskRec) (m : String) : ℚ :=
  (totalDurationOn ts m : ℚ) / ((pymax cal : ℚ) - (pymin cal : ℚ)) * 100

/-! ### Post-solve reporting (main.py lines 162-183) -/

/-- The status carried by the solver result object that main.py line 164
discards (`solver.solve(model, tee=True)` without inspecting the return). -/
inductive SolverStatus where
  | optimal
  | feasible
  | infeasible
  | unbounded
  | err
deriving DecidableEq

/-- Lexicographic order on `(job, task)` keys: Python's tuple-of-strings
order used by `sorted(model.JobToTask)` (main.py line 168). -/
def keyLE (a b : String × String) : Prop :=
  a.1 < b.1 ∨ (a.1 = b.1 ∧ a.2 ≤ b.2)

instance (a b : String × String) : Decidable (keyLE a b) := by
  unfold keyLE
  infer_instance

/-- The sorted key sequence of the schedule table (main.py line 168). -/
def sortedKeys (ts : List TaskRec) : List (String × String) :=
  List.insertionSort keyLE (ts.map key)

/-- Everything the reporting section prints: the schedule rows
`(job, task, start, end)` (lines 168-173), the makespan in minutes and hours
(lines 175-176), and per-machine utilization (lines 178-183). -/
structure Report where
  rows : List (String × String × ℚ × ℚ)
  makespanMin : ℚ
  makespanHours : ℚ
  utilization : List (String × ℚ)

/-- The reporting stage (main.py lines 166-183).  The `status` argument
records what the discarded solver result carried; the code never consults
it — values are read and reported for every status. -/
def runReport (status : SolverStatus) (machines : List String)
    (cal : String → List Nat) (ts : List TaskRec) (σ : Sol) : Report where
  rows := (sortedKeys ts).map (fun k => (k.1, k.2, σ.startTime k, σ.endTime k))
  makespanMin := σ.makespan
  makespanHours := σ.makespan / 60
  utilization := machines.map (fun m => (m, utilizationOn (cal m) ts m))

/-! ### Reference resolution and failure order (main.py lines 35-116)

`Job_Task` (lines 35-41) is built with no validation.  An unknown machine id
raises `KeyError(machine)` at `calendar[machine]` (line 50), during slot
expansion — before the Pyomo model, its variables (lines 93-102) or any
constraint exist.  An unknown predecessor id raises a `KeyError` naming the
key `(j, pred)` only at `m.endTime[j, pred]` (line 115), while the precedence
constraints are being built — after the variables and the duration
constraints (lines 106-108) have been created. -/

/-- A `KeyError` of the script, carrying the offending identifier. -/
inductive BuildError where
  | unknownMachine (machine : String)
  | unknownPredecessor (job taskId pred : String)
deriving DecidableEq

/-- The successive stages of the script, in program order. -/
inductive Stage where
  | dataModel
  | slotExpansion
  | variableCreation
  | durationConstraints
  | precedenceConstraints
deriving DecidableEq

/-- Program order of the stages: `Job_Task` build (lines 35-41), slot
expansion (43-57), variable creation (93-102), duration constraints
(106-108), precedence constraints (111-116). -/
def stageIdx : Stage → Nat
  | .dataModel => 0
  | .slotExpansion => 1
  | .variableCreation => 2
  | .durationConstraints => 3
  | .precedenceConstraints => 4

/-- `calendar[machine]` (main.py line 50) as a dictionary lookup. -/
def lookupCalendar (cal : List (String × List Nat)) (m : String) :
    Option (List Nat) :=
  (cal.find? (fun p => p.1 == m)).map (fun p => p.2)

/-- The first `KeyError` of the slot-expansion loop (main.py lines 43-57):
an unknown machine id fails the `calendar[machine]` lookup, naming the
machine. -/
def slotExpansionFailure (cal : List (String × List Nat)) (ts : List TaskRec) :
    Option BuildError :=
  ts.findSome? (fun r =>
    match lookupCalendar cal r.machine with
    | some _ => none
    | none => some (.unknownMachine r.machine))

/-- Membership of a `(job, task)` key in `Job_Task`. -/
def hasKey (ts : List TaskRec) (k : String × String) : Bool :=
  ts.any (fun r => r.job == k.1 && r.taskName == k.2)

/-- The first `KeyError` of `precedence_rule` (main.py lines 111-115):
indexing `endTime` with an unresolved `(j, pred)` key fails, naming that
key. -/
def precedenceFailure (ts : List TaskRec) : Option BuildError :=
  ts.findSome? (fun r =>
    match r.predecessor with
    | none => none
    | some p =>
        if hasKey ts (r.job, p) then none
        else some (.unknownPredecessor r.job r.taskName p))

/-- The first failure of a whole run and the stage where it surfaces:
`Job_Task` construction never fails, slot expansion fails on unknown
machines, variable creation and duration constraints never fail, and
precedence construction fails on unknown predecessors. -/
def firstFailure (cal : List (String × List Nat)) (ts : List TaskRec) :
    Option (Stage × BuildError) :=
  match slotExpansionFailure cal ts with
  | some e => some (.slotExpansion, e)
  | none => (precedenceFailure ts).map (fun e => (.precedenceConstraints, e))

/-! ### Concrete instances used to evaluate the theorems -/

/-- Job1's Cutting task from the script's task list. -/
def demoTask : TaskRec := ⟨"Job1", "Cutting", "LaserCutter", 3, none⟩

/-- A valuation placing `demoTask` at the first LaserCutter tick. -/
def demoSol : Sol := ⟨fun _ => 480, fun _ => 660, fun _ _ => 1, 660⟩

/-- A slot table giving every task the single slot 480. -/
def demoSlots : String × String → List Nat := fun _ => [480]

/-- A 10-hour task on a machine whose window is only one hour long. -/
def tinyTask : TaskRec := ⟨"Job1", "Cutting", "TinyStation", 10, none⟩

/-- The slot table of a task whose ValidSlot set is empty. -/
def emptySlots : String × String → List Nat := fun _ => []

/-- A one-machine calendar dictionary. -/
def refCal : List (String × List Nat) := [("M1", [480, 1020])]

/-- A task chain whose second task names the unknown predecessor "Ghost". -/
def refTasks : List TaskRec :=
  [⟨"Job1", "Cutting", "M1", 3, none⟩, ⟨"Job1", "Milling", "M1", 2, some "Ghost"⟩]

/-! ### Theorems -/

theorem validSlotsDay_eq (w : List Nat) (d day : Nat) :
    validSlotsDay w d day =
      (w.filter (fun h => h + d ≤ w.getLastD 0)).map (fun h => h + 1440 * day) := by
  unfold validSlotsDay
  congr 1
  apply List.filter_congr
  intro h _
  rw [decide_eq_decide]
  omega

theorem validSlots_eq_specSlots (w : List Nat) (d D : Nat) :
    validSlots w d D = specSlots w d D := by
  unfold validSlots specSlots
  have hf : validSlotsDay w d = fun day =>
      (w.filter (fun h => h + d ≤ w.getLastD 0)).map (fun h => h + 1440 * day) :=
    funext (validSlotsDay_eq w d)
  rw [hf]

theorem validSlotsDay_pairwise (w : List Nat) (d day : Nat)
    (hsort : w.Pairwise (· < ·)) :
    (validSlotsDay w d day).Pairwise (· < ·) := by
  unfold validSlotsDay
  rw [List.pairwise_map]
  exact (hsort.filter _).imp (by omega)

theorem validSlotsDay_mem_range (w : List Nat) (d day s : Nat)
    (hday : ∀ h ∈ w, h < 1440) (hs : s ∈ validSlotsDay w d day) :
    1440 * day ≤ s ∧ s < 1440 * (day + 1) := by
  unfold validSlotsDay at hs
  simp only [List.mem_map, List.mem_filter, decide_eq_true_eq] at hs
  obtain ⟨h, ⟨hmem, _⟩, rfl⟩ := hs
  have := hday h hmem
  omega

theorem validSlots_pairwise (w : List Nat) (d D : Nat)
    (hsort : w.Pairwise (· < ·)) (hday : ∀ h ∈ w, h < 1440) :
    (validSlots w d D).Pairwise (· < ·) := by
  induction D with
  | zero => simp [validSlots]
  | succ D ih =>
    unfold validSlots at ih ⊢
    rw [List.range_succ, List.flatMap_append, List.flatMap_cons, List.flatMap_nil,
      List.append_nil, List.pairwise_append]
    refine ⟨ih, validSlotsDay_pairwise w d D hsort, ?_⟩
    intro a ha b hb
    obtain ⟨day, hdmem, hamem⟩ := List.mem_flatMap.mp ha
    have hday' : day < D := List.mem_range.mp hdmem
    have h1 := validSlotsDay_mem_range w d day a hday hamem
    have h2 := validSlotsDay_mem_range w d D b hday hb
    have : 1440 * (day + 1) ≤ 1440 * D := by omega
    omega

/-- C2: for a task of duration `d` on a machine with single-day tick list `w`
(nonempty, strictly increasing, all ticks within one day) and a horizon of `D`
days, the computed slot list equals the spec's set
`{ w[i] + 1440*day : day ∈ [0,D), i ∈ [0,k], w[i] + d ≤ w[k] }` and is strictly
ascending by day then by tick. -/
theorem c2_calendar_expander_contract (w : List Nat) (d D : Nat)
    (hne : w ≠ []) (hsort : w.Pairwise (· < ·)) (hday : ∀ h ∈ w, h < 1440) :
    validSlots w d D = specSlots w d D ∧ (validSlots w d D).Pairwise (· < ·) :=
  ⟨validSlots_eq_specSlots w d D, validSlots_pairwise w d D hsort hday⟩

/-- Witness for C2: the LaserCutter calendar (ticks 480, 540, …, 1020) with the
3-hour Cutting task over a 2-day horizon. -/
theorem c2_calendar_expander_contract_witness :
    validSlots [480, 540, 600, 660, 720, 780, 840, 900, 960, 1020] 180 2 =
        specSlots [480, 540, 600, 660, 720, 780, 840, 900, 960, 1020] 180 2 ∧
      (validSlots [480, 540, 600, 660, 720, 780, 840, 900, 960, 1020] 180 2).Pairwise
        (· < ·) :=
  c2_calendar_expander_contract [480, 540, 600, 660, 720, 780, 840, 900, 960, 1020]
    180 2 (by decide) (by decide) (by decide)

/-- C1: for an assignment with all start/end variables in `[0, UB numDays]`
and any `M ≥ UB numDays`, the big-M pair is satisfiable by a binary `y` iff
the symbolic ordering disjunction holds; moreover `y = 1` forces the first
ordering (second.start ≥ first.end) and `y = 0` the second. -/
theorem c1_bigM_refines_disjunction (numDays : Nat) (M s1 e1 s2 e2 : ℚ)
    (hM : UB numDays ≤ M)
    (hs1l : 0 ≤ s1) (hs1u : s1 ≤ UB numDays)
    (he1l : 0 ≤ e1) (he1u : e1 ≤ UB numDays)
    (hs2l : 0 ≤ s2) (hs2u : s2 ≤ UB numDays)
    (he2l : 0 ≤ e2) (he2u : e2 ≤ UB numDays) :
    ((∃ y : ℚ, (y = 0 ∨ y = 1) ∧ bigMPair M s1 e1 s2 e2 y) ↔
        orderingDisjunction s1 e1 s2 e2) ∧
      (bigMPair M s1 e1 s2 e2 1 → s2 ≥ e1) ∧
      (bigMPair M s1 e1 s2 e2 0 → s1 ≥ e2) := by
  unfold bigMPair orderingDisjunction
  refine ⟨⟨?_, ?_⟩, ?_, ?_⟩
  · rintro ⟨y, (rfl | rfl), h1, h2⟩
    · right; linarith [h2]
    · left; linarith [h1]
  · rintro (h | h)
    · exact ⟨1, Or.inr rfl, by linarith, by linarith⟩
    · exact ⟨0, Or.inl rfl, by linarith, by linarith⟩
  · rintro ⟨h1, _⟩; linarith
  · rintro ⟨_, h2⟩; linarith

/-- Witness for C1: the Job1/Job4 Cutting pair on the LaserCutter with the
script's horizon (`num_days = 5`, so `UB = 7200`) and `M = 7200`. -/
theorem c1_bigM_refines_disjunction_witness :
    ((∃ y : ℚ, (y = 0 ∨ y = 1) ∧ bigMPair 7200 480 660 660 960 y) ↔
        orderingDisjunction 480 660 660 960) ∧
      (bigMPair 7200 480 660 660 960 1 → (660 : ℚ) ≥ 660) ∧
      (bigMPair 7200 480 660 660 960 0 → (480 : ℚ) ≥ 960) :=
  c1_bigM_refines_disjunction 5 7200 480 660 660 960 (by norm_num [UB])
    (by norm_num) (by norm_num [UB]) (by norm_num) (by norm_num [UB])
    (by norm_num) (by norm_num [UB]) (by norm_num) (by norm_num [UB])

/-- C5: the compiled set contains `endTime = startTime + duration` for every
task (one duration constraint each, no skip), and a valuation that satisfies
the whole compiled set satisfies each task's duration linkage. -/
theorem c5_duration_linkage (ts : List TaskRec)
    (slotsOf : String × String → List Nat) (σ : Sol) :
    (∀ r ∈ ts, Cons.durEq (key r) (durationMin r) ∈ compileConstraints ts slotsOf) ∧
      ((∀ c ∈ compileConstraints ts slotsOf, holds σ c) →
        ∀ r ∈ ts, σ.endTime (key r) = σ.startTime (key r) + (durationMin r : ℚ)) := by
  constructor
  · intro r hr
    unfold compileConstraints
    refine List.mem_append_left _ (List.mem_append_left _ ?_)
    refine List.mem_append_left _ (List.mem_append_left _ ?_)
    exact List.mem_map_of_mem _ hr
  · intro hsat r hr
    have hmem : Cons.durEq (key r) (durationMin r) ∈ compileConstraints ts slotsOf := by
      unfold compileConstraints
      refine List.mem_append_left _ (List.mem_append_left _ ?_)
      refine List.mem_append_left _ (List.mem_append_left _ ?_)
      exact List.mem_map_of_mem _ hr
    exact hsat _ hmem

/-- Witness for C5: Job1's Cutting task (3 h) with the valuation
start = 480, end = 660. -/
theorem c5_duration_linkage_witness :
    (Sol.mk (fun _ => 480) (fun _ => 660) (fun _ _ => 1) 660).endTime
        (key ⟨"Job1", "Cutting", "LaserCutter", 3, none⟩) =
      (Sol.mk (fun _ => 480) (fun _ => 660) (fun _ _ => 1) 660).startTime
          (key ⟨"Job1", "Cutting", "LaserCutter", 3, none⟩) +
        ((durationMin ⟨"Job1", "Cutting", "LaserCutter", 3, none⟩ : Nat) : ℚ) := by
  refine (c5_duration_linkage [⟨"Job1", "Cutting", "LaserCutter", 3, none⟩]
      (fun _ => [480]) (Sol.mk (fun _ => 480) (fun _ => 660) (fun _ _ => 1) 660)).2
    ?_ _ (List.mem_singleton.mpr rfl)
  intro c hc
  simp only [compileConstraints, precedenceRule, List.map_cons, List.map_nil,
    List.filterMap_cons, List.filterMap_nil, List.append_nil, List.cons_append,
    List.nil_append, List.mem_cons, List.not_mem_nil, or_false] at hc
  rcases hc with rfl | rfl | rfl | rfl <;>
    norm_num [holds, key, durationMin]

/-- C6: a valuation satisfies every compiled precedence constraint iff every
task with a non-null predecessor starts no earlier than that predecessor's
end (the predecessor key is formed within the same job); a task with a null
predecessor contributes no precedence constraint at all (`Constraint.Skip`). -/
theorem c6_precedence_constraints (ts : List TaskRec) (σ : Sol) :
    ((∀ c ∈ ts.filterMap precedenceRule, holds σ c) ↔
        ∀ r ∈ ts, ∀ p, r.predecessor = some p →
          σ.startTime (key r) ≥ σ.endTime (r.job, p)) ∧
      ∀ r ∈ ts, r.predecessor = none → precedenceRule r = none := by
  constructor
  · constructor
    · intro hsat r hr p hp
      have hmem : Cons.precGe (key r) (r.job, p) ∈ ts.filterMap precedenceRule := by
        refine List.mem_filterMap.mpr ⟨r, hr, ?_⟩
        unfold precedenceRule
        rw [hp]
      exact hsat _ hmem
    · intro hall c hc
      obtain ⟨r, hr, hrc⟩ := List.mem_filterMap.mp hc
      unfold precedenceRule at hrc
      cases hpred : r.predecessor with
      | none => rw [hpred] at hrc; exact absurd hrc (by simp)
      | some p =>
        rw [hpred] at hrc
        have hc' : c = Cons.precGe (key r) (r.job, p) := by
          exact (Option.some_injective _ hrc).symm
        rw [hc']
        exact hall r hr p hpred
  · intro r _ hpred
    unfold precedenceRule
    rw [hpred]

/-- Witness for C6: a two-task chain Cutting → Milling; the valuation
start(Milling) = 660 ≥ end(Cutting) = 660 satisfies the compiled precedence
constraints, and the predecessor-free Cutting task generates none. -/
theorem c6_precedence_constraints_witness :
    ((Sol.mk (fun k => if k.2 = "Milling" then 660 else 480)
          (fun k => if k.2 = "Milling" then 780 else 660) (fun _ _ => 1)
          780).startTime
        (key ⟨"Job1", "Milling", "CNC_Mill", 2, some "Cutting"⟩) ≥
      (Sol.mk (fun k => if k.2 = "Milling" then 660 else 480)
          (fun k => if k.2 = "Milling" then 780 else 660) (fun _ _ => 1)
          780).endTime ("Job1", "Cutting")) ∧
    precedenceRule ⟨"Job1", "Cutting", "LaserCutter", 3, none⟩ = none := by
  constructor
  · refine ((c6_precedence_constraints
        [⟨"Job1", "Cutting", "LaserCutter", 3, none⟩,
          ⟨"Job1", "Milling", "CNC_Mill", 2, some "Cutting"⟩]
        (Sol.mk (fun k => if k.2 = "Milling" then 660 else 480)
          (fun k => if k.2 = "Milling" then 780 else 660) (fun _ _ => 1)
          780)).1.mp ?_ _ (by simp) "Cutting" rfl)
    intro c hc
    simp only [precedenceRule, List.filterMap_cons, List.filterMap_nil,
      List.mem_cons, List.not_mem_nil, or_false] at hc
    rw [hc]
    have h1 : ("Cutting" : String) ≠ "Milling" := by decide
    norm_num [holds, key, h1]
  · exact (c6_precedence_constraints
        [⟨"Job1", "Cutting", "LaserCutter", 3, none⟩]
        (Sol.mk (fun _ => 0) (fun _ => 0) (fun _ _ => 0) 0)).2 _ (by simp) rfl

theorem binary_map_sum_zero (x : Nat → ℚ) (l : List Nat)
    (hbin : ∀ s ∈ l, x s = 0 ∨ x s = 1) (hz : (l.map x).sum = 0) :
    ∀ s ∈ l, x s = 0 := by
  induction l with
  | nil => simp
  | cons a l ih =>
    simp only [List.map_cons, List.sum_cons] at hz
    have hnn : 0 ≤ (l.map x).sum := by
      apply List.sum_nonneg
      intro q hq
      obtain ⟨s, hs, rfl⟩ := List.mem_map.mp hq
      rcases hbin s (List.mem_cons_of_mem a hs) with h | h <;> simp [h]
    have ha : x a = 0 := by
      rcases hbin a (List.mem_cons_self a l) with h | h
      · exact h
      · exfalso; rw [h] at hz; linarith
    have hz' : (l.map x).sum = 0 := by rw [ha] at hz; linarith
    intro s hs
    rcases List.mem_cons.mp hs with rfl | hs'
    · exact ha
    · exact ih (fun q hq => hbin q (List.mem_cons_of_mem a hq)) hz' s hs'

theorem weighted_sum_zero (x : Nat → ℚ) (l : List Nat)
    (hz : ∀ s ∈ l, x s = 0) :
    (l.map (fun s : Nat => (s : ℚ) * x s)).sum = 0 := by
  apply List.sum_eq_zero
  intro q hq
  obtain ⟨s, hs, rfl⟩ := List.mem_map.mp hq
  rw [hz s hs, mul_zero]

theorem exactlyOne_of_slot_constraints (x : Nat → ℚ) (l : List Nat) (st : ℚ)
    (hbin : ∀ s ∈ l, x s = 0 ∨ x s = 1)
    (hone : (l.map x).sum = 1)
    (hlink : st = (l.map (fun s : Nat => (s : ℚ) * x s)).sum) :
    ∃ s ∈ l, x s = 1 ∧ st = (s : ℚ) ∧ ∀ q ∈ l, q ≠ s → x q = 0 := by
  induction l generalizing st with
  | nil => simp at hone
  | cons a l ih =>
    simp only [List.map_cons, List.sum_cons] at hone hlink
    rcases hbin a (List.mem_cons_self a l) with ha | ha
    · rw [ha] at hone hlink
      simp only [zero_add, mul_zero] at hone hlink
      obtain ⟨s, hs, hxs, hst, hothers⟩ :=
        ih _ (fun q hq => hbin q (List.mem_cons_of_mem a hq)) hone hlink
      refine ⟨s, List.mem_cons_of_mem a hs, hxs, hst, ?_⟩
      intro q hq hqs
      rcases List.mem_cons.mp hq with rfl | hq'
      · exact ha
      · exact hothers q hq' hqs
    · rw [ha] at hone hlink
      have hz : (l.map x).sum = 0 := by linarith
      have hallz : ∀ s ∈ l, x s = 0 :=
        binary_map_sum_zero x l (fun q hq => hbin q (List.mem_cons_of_mem a hq)) hz
      have hrest : (l.map (fun s : Nat => (s : ℚ) * x s)).sum = 0 :=
        weighted_sum_zero x l hallz
      refine ⟨a, List.mem_cons_self a l, ha, ?_, ?_⟩
      · rw [hlink, hrest]; ring
      · intro q hq hqa
        rcases List.mem_cons.mp hq with rfl | hq'
        · exact absurd rfl hqa
        · exact hallz q hq'

/-- C4: the compiled model contains, for every task, the exactly-one-slot
constraint and the start-linkage constraint; hence in any valuation with
binary slot indicators satisfying the compiled set, exactly one indicator of
the task is 1, every other is 0, and the task's start time equals that
slot's offset — a member of its precomputed ValidSlot list. -/
theorem c4_slot_selection_forces_start (ts : List TaskRec)
    (slotsOf : String × String → List Nat) (σ : Sol) (r : TaskRec)
    (hr : r ∈ ts)
    (hbin : ∀ s ∈ slotsOf (key r),
      σ.startAtSlot (key r) s = 0 ∨ σ.startAtSlot (key r) s = 1)
    (hsat : ∀ c ∈ compileConstraints ts slotsOf, holds σ c) :
    Cons.oneSlot (key r) (slotsOf (key r)) ∈ compileConstraints ts slotsOf ∧
      Cons.linkStart (key r) (slotsOf (key r)) ∈ compileConstraints ts slotsOf ∧
      ∃ s ∈ slotsOf (key r), σ.startAtSlot (key r) s = 1 ∧
        σ.startTime (key r) = (s : ℚ) ∧
        ∀ q ∈ slotsOf (key r), q ≠ s → σ.startAtSlot (key r) q = 0 := by
  have hmem1 : Cons.oneSlot (key r) (slotsOf (key r)) ∈
      compileConstraints ts slotsOf := by
    unfold compileConstraints
    refine List.mem_append_left _ (List.mem_append_left _
      (List.mem_append_right _ ?_))
    exact List.mem_map_of_mem _ hr
  have hmem2 : Cons.linkStart (key r) (slotsOf (key r)) ∈
      compileConstraints ts slotsOf := by
    unfold compileConstraints
    refine List.mem_append_left _ (List.mem_append_right _ ?_)
    exact List.mem_map_of_mem _ hr
  have hone := hsat _ hmem1
  have hlink := hsat _ hmem2
  exact ⟨hmem1, hmem2,
    exactlyOne_of_slot_constraints (σ.startAtSlot (key r)) (slotsOf (key r))
      (σ.startTime (key r)) hbin hone hlink⟩

/-- Witness for C4: the one-task model with the single slot 480 and the
valuation that picks it. -/
theorem c4_slot_selection_forces_start_witness :
    Cons.oneSlot (key demoTask) (demoSlots (key demoTask)) ∈
        compileConstraints [demoTask] demoSlots ∧
      Cons.linkStart (key demoTask) (demoSlots (key demoTask)) ∈
        compileConstraints [demoTask] demoSlots ∧
      ∃ s ∈ demoSlots (key demoTask), demoSol.startAtSlot (key demoTask) s = 1 ∧
        demoSol.startTime (key demoTask) = (s : ℚ) ∧
        ∀ q ∈ demoSlots (key demoTask), q ≠ s →
          demoSol.startAtSlot (key demoTask) q = 0 := by
  refine c4_slot_selection_forces_start [demoTask] demoSlots demoSol demoTask
    (List.mem_singleton.mpr rfl) ?_ ?_
  · intro s _
    right
    rfl
  · intro c hc
    simp only [compileConstraints, precedenceRule, demoTask, demoSlots,
      List.map_cons, List.map_nil, List.filterMap_cons, List.filterMap_nil,
      List.append_nil, List.cons_append, List.nil_append, List.mem_cons,
      List.not_mem_nil, or_false] at hc
    rcases hc with rfl | rfl | rfl | rfl <;>
      norm_num [holds, key, durationMin, demoSol, demoTask, demoSlots]

/-- C3 (amended): compilation performs no emptiness check — the
slot-selection constraint of every task is emitted, and when the task's
ValidSlot list is empty that constraint is the empty sum `0 = 1`, which no
valuation satisfies; nothing fails before constraint compilation. -/
theorem c3_empty_slots_reach_compilation (ts : List TaskRec)
    (slotsOf : String × String → List Nat) (r : TaskRec) (hr : r ∈ ts) :
    Cons.oneSlot (key r) (slotsOf (key r)) ∈ compileConstraints ts slotsOf ∧
      (slotsOf (key r) = [] →
        ∀ σ : Sol, ¬ holds σ (Cons.oneSlot (key r) (slotsOf (key r)))) := by
  constructor
  · unfold compileConstraints
    refine List.mem_append_left _ (List.mem_append_left _
      (List.mem_append_right _ ?_))
    exact List.mem_map_of_mem _ hr
  · intro hempty σ hsat
    rw [hempty] at hsat
    simp [holds] at hsat

/-- Witness for C3's amended statement: the 10-hour task with an empty slot
table still gets its (unsatisfiable) slot-selection constraint compiled. -/
theorem c3_empty_slots_reach_compilation_witness :
    Cons.oneSlot (key tinyTask) (emptySlots (key tinyTask)) ∈
        compileConstraints [tinyTask] emptySlots ∧
      (emptySlots (key tinyTask) = [] →
        ∀ σ : Sol, ¬ holds σ (Cons.oneSlot (key tinyTask) (emptySlots (key tinyTask)))) :=
  c3_empty_slots_reach_compilation [tinyTask] emptySlots tinyTask
    (List.mem_singleton.mpr rfl)

/-- C3 counterexample: a 10-hour task on a machine open 8:00-9:00 (ticks
480, 540) has an empty ValidSlot list, yet no Infeasible-Input error is
signalled before constraint compilation — the compiled set still contains
the task's slot-selection constraint, now the unsatisfiable empty sum. -/
theorem c3_counterexample :
    validSlots [480, 540] 600 5 = [] ∧
      Cons.oneSlot ("Job1", "Cutting") (validSlots [480, 540] 600 5) ∈
        compileConstraints [tinyTask] (fun _ => validSlots [480, 540] 600 5) ∧
      ¬ holds demoSol
        (Cons.oneSlot ("Job1", "Cutting") (validSlots [480, 540] 600 5)) := by
  have h : validSlots [480, 540] 600 5 = [] := by decide
  refine ⟨h, ?_, ?_⟩
  · rw [h]
    decide
  · rw [h]
    simp [holds]

/-- C10: every computed slot keeps its task inside the day's window and the
horizon: each `s ∈ validSlots w d D` is `h + 1440·day` for a calendar tick
`h ∈ w` and a day `day < D`, satisfies `s + d ≤ 1440·day + w[k]` (that day's
close-of-window tick), and — the ticks lying within one day — both `s` and
`s + d` are at most `1440·D`, the declared variable bound `UB`. -/
theorem c10_slots_within_bounds (w : List Nat) (d D s : Nat)
    (hday : ∀ h ∈ w, h < 1440) (hs : s ∈ validSlots w d D) :
    ∃ day < D, ∃ h ∈ w, s = h + 1440 * day ∧
      s + d ≤ 1440 * day + w.getLastD 0 ∧ s + d ≤ 1440 * D ∧
      (s : ℚ) ≤ UB D ∧ (s : ℚ) + (d : ℚ) ≤ UB D := by
  obtain ⟨day, hdmem, hsd⟩ := List.mem_flatMap.mp hs
  have hdayD : day < D := List.mem_range.mp hdmem
  unfold validSlotsDay at hsd
  simp only [List.mem_map, List.mem_filter, decide_eq_true_eq] at hsd
  obtain ⟨h, ⟨hmem, hcond⟩, rfl⟩ := hsd
  have hwne : w ≠ [] := by
    intro hemp
    rw [hemp] at hmem
    exact absurd hmem (List.not_mem_nil h)
  have hlastmem : w.getLastD 0 ∈ w := by
    cases w with
    | nil => exact absurd rfl hwne
    | cons a l =>
      rw [List.getLastD_eq_getLast?, List.getLast?_eq_getLast (a :: l) (by simp)]
      exact List.getLast_mem _
  have hlast := hday _ hlastmem
  have h1 : (h + 1440 * day : ℕ) ≤ 1440 * D := by omega
  have h2 : (h + 1440 * day + d : ℕ) ≤ 1440 * D := by omega
  refine ⟨day, hdayD, h, hmem, rfl, by omega, by omega, ?_, ?_⟩
  · unfold UB
    exact_mod_cast h1
  · unfold UB
    exact_mod_cast h2

/-- Witness for C10: the slot 480 of a three-tick calendar, duration 60,
two-day horizon. -/
theorem c10_slots_within_bounds_witness :
    ∃ day < 2, ∃ h ∈ [480, 540, 600], 480 = h + 1440 * day ∧
      480 + 60 ≤ 1440 * day + [480, 540, 600].getLastD 0 ∧ 480 + 60 ≤ 1440 * 2 ∧
      ((480 : ℕ) : ℚ) ≤ UB 2 ∧ ((480 : ℕ) : ℚ) + ((60 : ℕ) : ℚ) ≤ UB 2 :=
  c10_slots_within_bounds [480, 540, 600] 60 2 480 (by decide) (by decide)

theorem foldl_max_sorted (l : List Nat) :
    ∀ a, (∀ x ∈ l, a ≤ x) → l.Pairwise (· ≤ ·) →
      l.foldl Nat.max a = l.getLastD a := by
  induction l with
  | nil => intro a _ _; rfl
  | cons b l ih =>
    intro a hle hp
    rw [List.foldl_cons, List.getLastD_cons]
    have hab : a ≤ b := hle b (List.mem_cons_self b l)
    have hmb : Nat.max a b = b := Nat.max_eq_right hab
    rw [hmb]
    exact ih b (List.pairwise_cons.mp hp).1 (List.pairwise_cons.mp hp).2

theorem foldl_min_of_le (l : List Nat) :
    ∀ a, (∀ x ∈ l, a ≤ x) → l.foldl Nat.min a = a := by
  induction l with
  | nil => intro a _; rfl
  | cons b l ih =>
    intro a hle
    rw [List.foldl_cons]
    have hab : a ≤ b := hle b (List.mem_cons_self b l)
    have hma : Nat.min a b = a := Nat.min_eq_left hab
    rw [hma]
    exact ih a (fun x hx => hle x (List.mem_cons_of_mem b hx))

theorem pymax_sorted (l : List Nat) (hne : l ≠ []) (hp : l.Pairwise (· ≤ ·)) :
    pymax l = l.getLastD 0 := by
  cases l with
  | nil => exact absurd rfl hne
  | cons a l =>
    unfold pymax
    rw [List.getLastD_cons]
    exact foldl_max_sorted l a (List.pairwise_cons.mp hp).1
      (List.pairwise_cons.mp hp).2

theorem pymin_sorted (l : List Nat) (hne : l ≠ []) (hp : l.Pairwise (· ≤ ·)) :
    pymin l = l.headD 0 := by
  cases l with
  | nil => exact absurd rfl hne
  | cons a l =>
    unfold pymin
    rw [List.headD_cons]
    exact foldl_min_of_le l a (List.pairwise_cons.mp hp).1

/-- C9: for a nonempty ascending calendar with a positive span, the reported
utilization equals (sum of durations of the machine's tasks) divided by the
single-day window span — last tick minus first tick — times 100; a total
duration equal to exactly one full span reports 100%, and a larger total
reports more than 100% (the figure is a single-day normalization and may
exceed 100). -/
theorem c9_utilization_single_day (cal : List Nat) (ts : List TaskRec)
    (m : String) (hne : cal ≠ []) (hsort : cal.Pairwise (· ≤ ·))
    (hspan : cal.headD 0 < cal.getLastD 0) :
    utilizationOn cal ts m =
        (totalDurationOn ts m : ℚ) /
          ((cal.getLastD 0 : ℚ) - (cal.headD 0 : ℚ)) * 100 ∧
      (totalDurationOn ts m = cal.getLastD 0 - cal.headD 0 →
        utilizationOn cal ts m = 100) ∧
      (cal.getLastD 0 - cal.headD 0 < totalDurationOn ts m →
        100 < utilizationOn cal ts m) := by
  have hmax := pymax_sorted cal hne hsort
  have hmin := pymin_sorted cal hne hsort
  have heq : utilizationOn cal ts m =
      (totalDurationOn ts m : ℚ) /
        ((cal.getLastD 0 : ℚ) - (cal.headD 0 : ℚ)) * 100 := by
    unfold utilizationOn
    rw [hmax, hmin]
  have hpos : (0 : ℚ) < (cal.getLastD 0 : ℚ) - (cal.headD 0 : ℚ) := by
    have : (cal.headD 0 : ℚ) < (cal.getLastD 0 : ℚ) := by exact_mod_cast hspan
    linarith
  have hcast : ((cal.getLastD 0 - cal.headD 0 : ℕ) : ℚ) =
      (cal.getLastD 0 : ℚ) - (cal.headD 0 : ℚ) :=
    Nat.cast_sub (le_of_lt hspan)
  refine ⟨heq, ?_, ?_⟩
  · intro htot
    rw [heq, htot, hcast, div_self (ne_of_gt hpos)]
    norm_num
  · intro hlt
    rw [heq]
    have hlt' : (cal.getLastD 0 : ℚ) - (cal.headD 0 : ℚ) <
        (totalDurationOn ts m : ℚ) := by
      rw [← hcast]
      exact_mod_cast hlt
    have h1 : (1 : ℚ) <
        (totalDurationOn ts m : ℚ) /
          ((cal.getLastD 0 : ℚ) - (cal.headD 0 : ℚ)) :=
      (one_lt_div hpos).mpr hlt'
    nlinarith [h1]

/-- Witness for C9: a machine open 8:00-17:00 (span 540) carrying one 9-hour
task reports exactly 100% utilization. -/
theorem c9_utilization_single_day_witness :
    utilizationOn [480, 1020] [⟨"Job1", "Cutting", "M1", 9, none⟩] "M1" = 100 :=
  (c9_utilization_single_day [480, 1020] [⟨"Job1", "Cutting", "M1", 9, none⟩]
    "M1" (by decide) (by decide) (by decide)).2.1 (by decide)

/-- C7 (amended): the script discards the solver result object (main.py line
164) and the reporting stage never consults any status: for every status the
produced report equals the Optimal-status report, still containing one row
of read-out variable values per task. -/
theorem c7_report_ignores_status (status : SolverStatus)
    (machines : List String) (cal : String → List Nat) (ts : List TaskRec)
    (σ : Sol) :
    runReport status machines cal ts σ =
        runReport SolverStatus.optimal machines cal ts σ ∧
      (runReport status machines cal ts σ).rows.length = ts.length := by
  refine ⟨rfl, ?_⟩
  show ((sortedKeys ts).map _).length = ts.length
  rw [List.length_map]
  unfold sortedKeys
  rw [(List.perm_insertionSort keyLE (ts.map key)).length_eq, List.length_map]

/-- C7 counterexample: with an Infeasible status the program still reads and
reports the variable values — the schedule row and the makespan are produced
unchanged — instead of treating the status as a terminal failure. -/
theorem c7_counterexample :
    (runReport SolverStatus.infeasible ["LaserCutter"] (fun _ => [480, 1020])
          [demoTask] demoSol).rows =
        [("Job1", "Cutting", (480 : ℚ), (660 : ℚ))] ∧
      (runReport SolverStatus.infeasible ["LaserCutter"] (fun _ => [480, 1020])
          [demoTask] demoSol).makespanMin = 660 := by
  constructor
  · rfl
  · rfl

/-- C8 (amended): an unknown machine id fails during slot expansion — before
variable creation — with an error naming the machine; but an unknown
predecessor id fails only while the precedence constraints are built, after
the variables and duration constraints exist, with an error naming the
offending `(job, task, pred)` key. -/
theorem c8_reference_failures (cal : List (String × List Nat))
    (ts : List TaskRec) :
    (∀ e, slotExpansionFailure cal ts = some e →
      firstFailure cal ts = some (Stage.slotExpansion, e) ∧
        stageIdx Stage.slotExpansion < stageIdx Stage.variableCreation ∧
        ∃ r ∈ ts, e = BuildError.unknownMachine r.machine ∧
          lookupCalendar cal r.machine = none) ∧
    (∀ e, slotExpansionFailure cal ts = none → precedenceFailure ts = some e →
      firstFailure cal ts = some (Stage.precedenceConstraints, e) ∧
        stageIdx Stage.variableCreation < stageIdx Stage.precedenceConstraints ∧
        ∃ r ∈ ts, ∃ p, r.predecessor = some p ∧
          e = BuildError.unknownPredecessor r.job r.taskName p ∧
          hasKey ts (r.job, p) = false) := by
  constructor
  · intro e he
    refine ⟨by unfold firstFailure; rw [he], by decide, ?_⟩
    obtain ⟨r, hr, hre⟩ := List.exists_of_findSome?_eq_some he
    cases hlc : lookupCalendar cal r.machine with
    | some w =>
      rw [hlc] at hre
      exact absurd hre (by simp)
    | none =>
      rw [hlc] at hre
      simp only [Option.some.injEq] at hre
      exact ⟨r, hr, hre.symm, hlc⟩
  · intro e hnone hpe
    refine ⟨by unfold firstFailure; rw [hnone, hpe]; rfl, by decide, ?_⟩
    obtain ⟨r, hr, hre⟩ := List.exists_of_findSome?_eq_some hpe
    cases hpred : r.predecessor with
    | none =>
      rw [hpred] at hre
      exact absurd hre (by simp)
    | some p =>
      rw [hpred] at hre
      by_cases hk : hasKey ts (r.job, p) = true
      · simp [hk] at hre
      · simp only [hk, if_false, Bool.false_eq_true, Option.some.injEq] at hre
        exact ⟨r, hr, p, hpred, hre.symm, by simpa using hk⟩

/-- Witness for C8's amended statement: the "Ghost" predecessor surfaces at
the precedence-constraint stage, after variable creation, naming its key. -/
theorem c8_reference_failures_witness :
    firstFailure refCal refTasks =
        some (Stage.precedenceConstraints,
          BuildError.unknownPredecessor "Job1" "Milling" "Ghost") ∧
      stageIdx Stage.variableCreation < stageIdx Stage.precedenceConstraints ∧
      ∃ r ∈ refTasks, ∃ p, r.predecessor = some p ∧
        BuildError.unknownPredecessor "Job1" "Milling" "Ghost" =
          BuildError.unknownPredecessor r.job r.taskName p ∧
        hasKey refTasks (r.job, p) = false := by
  have h := (c8_reference_failures refCal refTasks).2
    (BuildError.unknownPredecessor "Job1" "Milling" "Ghost") (by decide) (by decide)
  exact ⟨h.1, h.2.1, h.2.2⟩

/-- C8 counterexample: the task list whose Milling task names the unknown
predecessor "Ghost" is not rejected at Data-Model construction — `Job_Task`
is built with no validation — and the run's first failure surfaces at the
precedence-constraint stage, strictly after variable creation. -/
theorem c8_counterexample :
    firstFailure refCal refTasks =
        some (Stage.precedenceConstraints,
          BuildError.unknownPredecessor "Job1" "Milling" "Ghost") ∧
      stageIdx Stage.variableCreation < stageIdx Stage.precedenceConstraints ∧
      slotExpansionFailure refCal refTasks = none := by
  decide

end FCH
